import Mathlib

/-!
Verification development for the knowbase content pipeline
(`src/state.rs`, `src/main.rs`).

Strings are modelled as `List Char` (Rust `String` is UTF-8; byte-level
operations such as `len`, `is_char_boundary` and slicing are modelled through
`Char.utf8Size`, which is exactly the UTF-8 encoded size Rust uses).
Floating point similarity scores (`strsim::jaro_winkler`, `f64`) are modelled
in exact rational arithmetic `ℚ`; the values compared in the theorems below
are robust to `f64` rounding.  The third-party markdown engine (comrak) is
treated as a parameter (`MdEngine`); a small concrete instance covering
single-paragraph plain text is provided for evaluating witnesses.
-/

namespace Knowbase

open scoped List

/-! ## Substring search -/

/-- Position of the first occurrence of `pat` in `s` (leftmost match),
`none` when `pat` does not occur.  This is the primitive with which the
regex `INDEX_RE`'s leftmost-match semantics is embedded. -/
def findSub (pat : List Char) : List Char → Option Nat
  | [] => if pat.isPrefixOf ([] : List Char) then some 0 else none
  | c :: cs =>
    if pat.isPrefixOf (c :: cs) then some 0 else (findSub pat cs).map (· + 1)

/-- Whether `pat` occurs in `s` as a contiguous substring. -/
def containsSub (s pat : List Char) : Bool := (findSub pat s).isSome

/-! ## Index region extraction (regex `INDEX_RE` in `state.rs`)

The regex is `(?s)\+\+\+INDEX\+\+\+\n(.*?)\n---INDEX---`: a literal start
token `+++INDEX+++` followed by a newline, a non-greedy inner region (`.`
matches newlines because of `(?s)`), a newline and the literal end token
`---INDEX---`.  The regex engine returns the leftmost match, and within it
the non-greedy inner region makes the end token the earliest possible one.
A whole match can only begin at an occurrence of the start token followed
somewhere later by the end token; if the first start-token occurrence has no
end token after it, no later one has either, so the leftmost match begins at
the first occurrence of the start token. -/

/-- Start token of the index region including the trailing newline
(12 characters). -/
def startTok : List Char := ("+++INDEX+++\n").toList

/-- End token of the index region including the leading newline
(12 characters). -/
def endTok : List Char := ("\n---INDEX---").toList

/-- Bare start delimiter literal, as it appears in source text. -/
def startLit : List Char := ("+++INDEX+++").toList

/-- Bare end delimiter literal, as it appears in source text. -/
def endLit : List Char := ("---INDEX---").toList

/-- Embeds `INDEX_RE.captures(&md)`: returns `some (i, j)` where `i` is the
start of the whole match (the first occurrence of `startTok`) and `j` is the
position where `endTok` begins (the earliest occurrence at or after
`i + 12`); the whole match is `[i, j + 12)` and the captured group 1 is
`[i + 12, j)`. -/
def indexMatch (md : List Char) : Option (Nat × Nat) :=
  match findSub startTok md with
  | none => none
  | some i =>
    match findSub endTok (md.drop (i + 12)) with
    | none => none
    | some k => some (i, i + 12 + k)

/-- The source after `md.replace_range(index_match.get(0).range(), "")`:
the entire matched region, delimiters included, removed; unchanged when
there is no match. -/
def strippedMd (md : List Char) : List Char :=
  match indexMatch md with
  | none => md
  | some (i, j) => md.take i ++ md.drop (j + 12)

/-- Captured group 1 of the index match: the inner text between the
delimiter lines. -/
def indexInner (md : List Char) : Option (List Char) :=
  (indexMatch md).map (fun p => (md.drop (p.1 + 12)).take (p.2 - (p.1 + 12)))

/-! ## Byte lengths and character boundaries (preview extraction) -/

/-- Byte length of a string, as Rust's `str::len` (UTF-8 encoded size). -/
def byteLen : List Char → Nat
  | [] => 0
  | c :: cs => c.utf8Size + byteLen cs

/-- Embeds Rust's `str::is_char_boundary n`: `n` is the UTF-8 byte length of
some prefix of the string.  Positions beyond the byte length are not
boundaries, matching Rust (which returns `false` there). -/
def isBoundary : List Char → Nat → Bool
  | _, 0 => true
  | [], _ + 1 => false
  | c :: cs, n + 1 =>
    if c.utf8Size ≤ n + 1 then isBoundary cs (n + 1 - c.utf8Size) else false

/-- Structurally recursive worker for the preview cut-point loop, stepping
the candidate position forward while spending one unit of fuel per step. -/
def boundaryFromAux (s : List Char) : Nat → Nat → Nat
  | 0, n => n
  | fuel + 1, n => if isBoundary s n then n else boundaryFromAux s fuel (n + 1)

/-- Embeds the preview cut-point loop of `set_page`:
`while !md.is_char_boundary(preview_len) { preview_len += 1 }`.
The fuel `byteLen s - n` never runs out before a boundary is reached when
`n ≤ byteLen s` (which always holds in `set_page`, where the loop starts at
`min(len, 500)`), because the byte length itself is a boundary. -/
def boundaryFrom (s : List Char) (n : Nat) : Nat :=
  boundaryFromAux s (byteLen s - n) n

/-- Byte slice `s[0..n]` for `n` a character boundary: the prefix of `s`
whose UTF-8 size is `n`. -/
def takeBytes : List Char → Nat → List Char
  | _, 0 => []
  | [], _ + 1 => []
  | c :: cs, n + 1 =>
    if c.utf8Size ≤ n + 1 then c :: takeBytes cs (n + 1 - c.utf8Size) else []

/-! ## Markdown syntax trees and the link rewriting pass -/

/-- Transient parse-tree node.  Hyperlink nodes carry their destination URL;
all other comrak node kinds are abstracted into text leaves, soft line
breaks, and generic containers distinguished by a tag. -/
inductive MdNode where
  | link : List Char → List MdNode → MdNode
  | text : List Char → MdNode
  | softbreak : MdNode
  | container : Nat → List MdNode → MdNode

mutual

/-- Embeds `iter_md_nodes(root, f)` specialized to the closure in
`set_page`: at every node, if it is a hyperlink whose destination satisfies
`url.starts_with("/")`, the destination becomes `"/w"` inserted at position
0 (so `url` becomes `"/w" ++ url`); every other node is unchanged; children
are visited recursively. -/
def rewriteLinks : MdNode → MdNode
  | .link url cs =>
    .link (if url.head? = some '/' then '/' :: 'w' :: url else url)
      (rewriteLinksList cs)
  | .text s => .text s
  | .softbreak => .softbreak
  | .container t cs => .container t (rewriteLinksList cs)

/-- Pre-order traversal of a node list for `rewriteLinks`. -/
def rewriteLinksList : List MdNode → List MdNode
  | [] => []
  | n :: ns => rewriteLinks n :: rewriteLinksList ns

end

mutual

/-- All hyperlink destinations of a tree, in pre-order. -/
def linkUrls : MdNode → List (List Char)
  | .link url cs => url :: linkUrlsList cs
  | .text _ => []
  | .softbreak => []
  | .container _ cs => linkUrlsList cs

/-- Pre-order collection of hyperlink destinations of a node list. -/
def linkUrlsList : List MdNode → List (List Char)
  | [] => []
  | n :: ns => linkUrls n ++ linkUrlsList ns

end

mutual

/-- The tree with every hyperlink destination erased: the part of the tree a
link rewrite must leave untouched. -/
def eraseUrls : MdNode → MdNode
  | .link _ cs => .link [] (eraseUrlsList cs)
  | .text s => .text s
  | .softbreak => .softbreak
  | .container t cs => .container t (eraseUrlsList cs)

/-- Pointwise `eraseUrls` on a node list. -/
def eraseUrlsList : List MdNode → List MdNode
  | [] => []
  | n :: ns => eraseUrls n :: eraseUrlsList ns

end

/-- Claim-side notion: a destination beginning with exactly one `/`
(root-relative in the spec's glossary); `//host` does not qualify. -/
def singleLeadingSlash : List Char → Bool
  | '/' :: '/' :: _ => false
  | '/' :: _ => true
  | _ => false

/-- Destination rewrite as the amended claim words it: every destination
that starts with `/` (one or more) gets `/w` prepended; others are
unchanged. -/
def specRewriteUrl (url : List Char) : List Char :=
  if ['/'] <+: url then '/' :: 'w' :: url else url

/-! ## Pages and the assembly pipeline -/

/-- Persisted page record (`struct Page` in `state.rs`). -/
structure Page where
  content : List Char
  index : List Char
  preview : List Char
deriving DecidableEq

/-- The `Page::default()` record: all fields empty. -/
def Page.empty : Page := ⟨[], [], []⟩

/-- The third-party comrak markdown engine, specified only by its interface:
`parse` is `comrak::parse_document` and `render` is `comrak::format_html`
under the fixed `ComrakOptions` of `set_page`.  Both are pure functions. -/
structure MdEngine where
  parse : List Char → MdNode
  render : MdNode → List Char

/-- Embeds `comrak::markdown_to_html(s, &opts)`: parse then render, without
any tree transformation in between. -/
def mdToHtml (E : MdEngine) (s : List Char) : List Char := E.render (E.parse s)

/-- Embeds the pure page-assembly part of `State::set_page` (everything
except the store write): extract the index region, parse the remaining
source, rewrite root-relative links in place, take the byte-safe preview of
the remaining source, and render the rewritten tree as the content. -/
def assemble (E : MdEngine) (md : List Char) : Page :=
  let idx : List Char :=
    match indexInner md with
    | some inner => mdToHtml E inner
    | none => []
  let fed := strippedMd md
  let pl := boundaryFrom fed (Nat.min (byteLen fed) 500)
  { content := E.render (rewriteLinks (E.parse fed))
    index := idx
    preview := takeBytes fed pl }

/-! ## The page store (redis hash `pages`)

The store is modelled as an association list in scan order.  `hset`
overwrites the value of an existing field in place and appends a new field
at the end; `hscan_match` with the pattern `*q*` (for a metacharacter-free
`q`) returns exactly the fields whose name contains `q` as a case-sensitive
substring, in scan order, together with their values. -/

/-- Store state: fields of the `pages` hash with their records, in scan
order. -/
abbrev Store := List (List Char × Page)

/-- Redis `HSET`: overwrite an existing field in place, or append. -/
def hset : Store → List Char → Page → Store
  | [], k, v => [(k, v)]
  | (k', v') :: rest, k, v =>
    if k' = k then (k, v) :: rest else (k', v') :: hset rest k v

/-- Redis `HGET`: the record stored under a field, if any. -/
def hget : Store → List Char → Option Page
  | [], _ => none
  | (k', v') :: rest, k => if k' = k then some v' else hget rest k

/-- Embeds `State::set_page` at the store level: assemble the page and write
it under `path` with one `HSET`. -/
def setPage (E : MdEngine) (st : Store) (path : List Char) (md : List Char) :
    Store :=
  hset st path (assemble E md)

/-! ## Search: title derivation, similarity, ranking -/

/-- ASCII model of Rust's `str::to_lowercase` (the query and keys considered
in the development are ASCII; the special multi-character Unicode lowercase
expansions are not modelled). -/
def lowercase (s : List Char) : List Char := s.map Char.toLower

/-- Splitting on a separator character, as Rust's `str::split(c)`:
`""` yields `[""]`, separators at the ends yield empty segments. -/
def splitOnChar (sep : Char) : List Char → List (List Char)
  | [] => [[]]
  | c :: cs =>
    if c = sep then [] :: splitOnChar sep cs
    else
      match splitOnChar sep cs with
      | [] => [[c]]
      | l :: ls => (c :: l) :: ls

/-- Embeds `key.split('/').last()` together with the (dead) `else` branch of
`run_search`: the final `/`-separated segment, or the whole key if the
iterator were empty. -/
def lastSegment (key : List Char) : List Char :=
  match (splitOnChar '/' key).getLast? with
  | some seg => seg
  | none => key

/-- The `.md` suffix pattern of `trim_end_matches`. -/
def mdSuf : List Char := ('.' :: 'm' :: 'd' :: [])

/-- Reversed worker for `trim_end_matches(".md")`: repeatedly remove the
reversed pattern `dm.` from the front of the reversed string. -/
def trimRevMd : List Char → List Char
  | d :: m :: p :: rest =>
    if d = 'd' ∧ m = 'm' ∧ p = '.' then trimRevMd rest else d :: m :: p :: rest
  | [] => []
  | [c] => [c]
  | [c, c'] => [c, c']

/-- Embeds Rust's `title.trim_end_matches(".md")`: all trailing repetitions
of `.md` removed (Rust removes the suffix repeatedly, not once). -/
def trimEndMd (s : List Char) : List Char := (trimRevMd s.reverse).reverse

/-- Character map of `str::replace("-", " ")`. -/
def dashSpace (c : Char) : Char := if c = '-' then ' ' else c

/-- Title derivation of `run_search`: last path segment, all trailing `.md`
suffixes stripped, dashes replaced by spaces. -/
def titleOf (key : List Char) : List Char :=
  (trimEndMd (lastSegment key)).map dashSpace

/-- Claim-side title derivation: strips at most ONE trailing `.md` suffix
(what claim C7 asserts the code does). -/
def stripOneMd (s : List Char) : List Char :=
  if mdSuf.isSuffixOf s then s.take (s.length - 3) else s

/-- Title as claim C7 words it: one `.md` suffix stripped. -/
def titleOneStrip (key : List Char) : List Char :=
  (stripOneMd (lastSegment key)).map dashSpace

/-- Concatenation of `n` copies of `.md`, for the trailing-suffix
characterization of `trimEndMd`. -/
def nMd : Nat → List Char
  | 0 => []
  | n + 1 => nMd n ++ mdSuf

/-- The reversed `.md` pattern `dm.`. -/
def mdRev : List Char := ('d' :: 'm' :: '.' :: [])

/-- Concatenation of `n` copies of the reversed pattern. -/
def nMdRev : Nat → List Char
  | 0 => []
  | n + 1 => mdRev ++ nMdRev n

/-! ## Jaro-Winkler similarity (strsim 0.10), in exact rationals -/

/-- State of strsim's `generic_jaro` main loop. -/
structure JaroState where
  consumed : List Bool
  matched : Nat
  transpositions : Nat
  bMatchIndex : Nat

/-- Inner loop of `generic_jaro`: the first index `j` of `b` with
`lo ≤ j ≤ hi` whose character equals `aElem` and is not yet consumed. -/
def jaroFind (b : List Char) (consumed : List Bool) (aElem : Char)
    (lo hi : Nat) : Option Nat :=
  (List.range b.length).find? fun j =>
    decide (lo ≤ j) && decide (j ≤ hi) && (b.getD j 'a' == aElem) &&
      !(consumed.getD j true)

/-- One iteration of `generic_jaro`'s outer loop, for the `i`-th character
of `a`. -/
def jaroStep (b : List Char) (sr : Nat) (st : JaroState) (ia : Nat × Char) :
    JaroState :=
  let lo := if sr < ia.1 then ia.1 - sr else 0
  let hi := Nat.min (b.length - 1) (ia.1 + sr)
  if hi < lo then st
  else
    match jaroFind b st.consumed ia.2 lo hi with
    | none => st
    | some j =>
      { consumed := st.consumed.set j true
        matched := st.matched + 1
        transpositions :=
          if j < st.bMatchIndex then st.transpositions + 1
          else st.transpositions
        bMatchIndex := j }

/-- Embeds `strsim::jaro` (via `generic_jaro`, strsim 0.10) in exact
rational arithmetic.  With `m` matches and `t` transpositions the strsim
formula `(1/3) * (m/a_len + m/b_len + (m - t)/m)` equals the single
fraction `(m*m*b_len + m*m*a_len + (m - t)*a_len*b_len) / (3*a_len*b_len*m)`,
which is built with `mkRat` so that the value is kernel-computable (the
field operations on `ℚ` are irreducible by design). -/
def jaro (a b : List Char) : ℚ :=
  if a.length = 0 ∧ b.length = 0 then 1
  else if a.length = 0 ∨ b.length = 0 then 0
  else if a.length = 1 ∧ b.length = 1 then (if a = b then 1 else 0)
  else
    let sr := Nat.max a.length b.length / 2 - 1
    let st := a.enum.foldl (jaroStep b sr)
      ⟨List.replicate b.length false, 0, 0, 0⟩
    if st.matched = 0 then 0
    else
      mkRat
        (st.matched * st.matched * b.length +
          st.matched * st.matched * a.length +
          (st.matched - st.transpositions) * a.length * b.length)
        (3 * a.length * b.length * st.matched)

/-- Length of the common character-wise initial run of two strings. -/
def commonRunLen (a b : List Char) : Nat :=
  ((a.zip b).takeWhile fun p => p.1 == p.2).length

/-- Embeds `strsim::jaro_winkler` (strsim 0.10): unbounded common initial
run `p`, factor `0.1`, clamped to `1`.  For `jaro a b = n/d` (with
`0 ≤ n ≤ d`) the strsim value `n/d + 0.1 * p * (1 - n/d)` equals
`(10*n + p*(d - n)) / (10*d)`, built with `mkRat` for the same
computability reason as in `jaro`. -/
def jaroWinkler (a b : List Char) : ℚ :=
  let jd := jaro a b
  let p := commonRunLen a b
  let jwd := mkRat (10 * jd.num + p * ((jd.den : Int) - jd.num)) (10 * jd.den)
  if jwd ≤ 1 then jwd else 1

/-! ## Stable sorting (Rust `slice::sort_by`) -/

/-- Insertion of `x` into `s` before the first element `y` with
`le x y`. -/
def insertSorted (le : α → α → Bool) (x : α) : List α → List α
  | [] => [x]
  | y :: ys => if le x y then x :: y :: ys else y :: insertSorted le x ys

/-- Stable sort by a boolean total preorder.  Rust's `sort_by` is contracted
to produce the stable sorted permutation of its input, which is unique, so
any stable sorting algorithm is an extensionally faithful model; insertion
sort is used because it is structurally recursive. -/
def stableSort (le : α → α → Bool) : List α → List α
  | [] => []
  | x :: xs => insertSorted le x (stableSort le xs)

/-! ## Search (`State::run_search`) -/

/-- Ephemeral search result (`struct SearchResult` in `state.rs`). -/
structure SearchResult where
  title : List Char
  url : List Char
  preview : List Char
deriving DecidableEq

/-- Result record built for one matching field: derived title, the literal
`w/` prepended to the key, and the stored preview. -/
def mkResult (key : List Char) (page : Page) : SearchResult :=
  { title := titleOf key, url := 'w' :: '/' :: key, preview := page.preview }

/-- Candidate generation of `run_search`: the fields returned by
`hscan_match` with pattern `*qlc*`, i.e. those whose name contains the
(already lower-cased) query as a case-sensitive substring, in scan order. -/
def scanCandidates (st : Store) (qlc : List Char) : Store :=
  st.filter fun kv => containsSub kv.1 qlc

/-- Comparator of `run_search`'s `sort_by` in `≤`-form: `a` may precede `b`
exactly when `jaro_winkler(b.title, search) ≤ jaro_winkler(a.title, search)`
(with `search` the lower-cased query), i.e. descending similarity. -/
def resultLe (qlc : List Char) (a b : SearchResult) : Bool :=
  decide (jaroWinkler b.title qlc ≤ jaroWinkler a.title qlc)

/-- Embeds `State::run_search`: lower-case the query, scan matching fields,
build result records, stably sort by descending Jaro-Winkler similarity of
the title to the lower-cased query. -/
def runSearch (st : Store) (q : List Char) : List SearchResult :=
  let qlc := lowercase q
  stableSort (resultLe qlc)
    ((scanCandidates st qlc).map fun kv => mkResult kv.1 kv.2)

/-! ## A concrete plain-text markdown engine

Modelled from the spec: the comrak document parser and HTML renderer
(third-party, not part of this repository's sources) restricted to the
fragment actually exercised by the witnesses below — a document that is a
single paragraph of plain text lines, with `hardbreaks` enabled so soft
breaks render as `<br />` and with HTML special characters escaped; the
spec's §4.1 states that text left in the main source (such as the
delimiters of a second index block) is passed through the main pipeline as
literal text. -/

/-- HTML escaping of one character, as comrak's HTML writer. -/
def escChar (c : Char) : List Char :=
  if c = '<' then ("&lt;").toList
  else if c = '>' then ("&gt;").toList
  else if c = '&' then ("&amp;").toList
  else if c = '"' then ("&quot;").toList
  else [c]

/-- HTML escaping of a string. -/
def htmlEscape (s : List Char) : List Char := (s.map escChar).flatten

/-- Text lines of a paragraph interleaved with soft breaks. -/
def lineNodes : List (List Char) → List MdNode
  | [] => []
  | [l] => [MdNode.text l]
  | l :: ls => MdNode.text l :: MdNode.softbreak :: lineNodes ls

/-- Modelled from the spec: comrak's parser on a single-paragraph plain-text
document — one paragraph (container tag 1) of text lines separated by soft
breaks, inside the document node (container tag 0). -/
def plainParse (s : List Char) : MdNode :=
  MdNode.container 0 [MdNode.container 1 (lineNodes (splitOnChar '\n' s))]

/-- Rendering of one paragraph leaf under `hardbreaks`. -/
def renderLeaf : MdNode → List Char
  | .text s => htmlEscape s
  | .softbreak => ("<br />\n").toList
  | _ => []

/-- Modelled from the spec: comrak's HTML renderer on the single-paragraph
plain-text fragment produced by `plainParse` (possibly after the link
rewriting pass, which preserves its shape). -/
def plainRender : MdNode → List Char
  | .container 0 [MdNode.container 1 leaves] =>
    ("<p>").toList ++ (leaves.map renderLeaf).flatten ++ ("</p>\n").toList
  | _ => []

/-- The concrete plain-text engine used to evaluate witnesses. -/
def plainEngine : MdEngine := { parse := plainParse, render := plainRender }

/-! ## Concrete inputs used by counterexamples and witnesses -/

/-- The spec's §8 index-extraction example source. -/
def mdHello : List Char := ("+++INDEX+++\nHello\n---INDEX---\nBody text").toList

/-- A source containing two well-formed delimited index blocks whose
remainder after extracting the first is a single plain-text paragraph. -/
def mdTwoBlocks : List Char :=
  ("+++INDEX+++\nA\n---INDEX---x\n+++INDEX+++\nB\n---INDEX---").toList

/-! # Theorems -/

/-! ## Substring search correctness -/

/-- Boolean prefix test agrees with the `IsPrefix` relation. -/
theorem prefixOf_iff : ∀ {p s : List Char}, p.isPrefixOf s = true ↔ p <+: s
  | [], s => by simp [List.isPrefixOf]
  | _ :: _, [] => by simp [List.isPrefixOf]
  | a :: as, b :: bs => by
    simp only [List.isPrefixOf, Bool.and_eq_true, beq_iff_eq,
      List.cons_prefix_cons]
    exact and_congr Iff.rfl prefixOf_iff

/-- When `findSub` reports position `i`, the pattern occurs at `i` and at no
earlier position. -/
theorem findSub_eq_some :
    ∀ {s : List Char} {pat i}, findSub pat s = some i →
      pat <+: s.drop i ∧ ∀ k < i, ¬ pat <+: s.drop k
  | [], pat, i => by
    simp only [findSub]
    split
    · rename_i h
      intro hi
      obtain rfl : i = 0 := by simpa using hi.symm
      simpa using prefixOf_iff.mp h
    · intro h
      simp at h
  | c :: cs, pat, i => by
    simp only [findSub]
    split
    · rename_i h
      intro hi
      obtain rfl : i = 0 := by simpa using hi.symm
      exact ⟨by simpa using prefixOf_iff.mp h, by omega⟩
    · rename_i h
      intro hi
      obtain ⟨i', hi', rfl⟩ : ∃ i', findSub pat cs = some i' ∧ i = i' + 1 := by
        cases hfs : findSub pat cs with
        | none => rw [hfs] at hi; simp at hi
        | some v => rw [hfs] at hi; exact ⟨v, rfl, by simpa using hi.symm⟩
      obtain ⟨h1, h2⟩ := findSub_eq_some hi'
      refine ⟨by simpa using h1, ?_⟩
      intro k hk
      cases k with
      | zero =>
        simpa using fun hcon => h (prefixOf_iff.mpr hcon)
      | succ k' =>
        simpa using h2 k' (by omega)

/-- When `findSub` reports no position, the pattern occurs nowhere. -/
theorem findSub_eq_none :
    ∀ {s : List Char} {pat}, findSub pat s = none →
      ∀ k, ¬ pat <+: s.drop k
  | [], pat => by
    simp only [findSub]
    split
    · intro h; simp at h
    · rename_i h
      intro _ k hcon
      rw [List.drop_nil] at hcon
      exact h (prefixOf_iff.mpr hcon)
  | c :: cs, pat => by
    simp only [findSub]
    split
    · intro h; simp at h
    · rename_i h
      intro hnone k
      cases k with
      | zero => simpa using fun hcon => h (prefixOf_iff.mpr hcon)
      | succ k' =>
        have : findSub pat cs = none := by
          cases hfs : findSub pat cs with
          | none => rfl
          | some v => rw [hfs] at hnone; simp at hnone
        simpa using findSub_eq_none this k'

/-- The boolean substring test agrees with the `IsInfix` relation. -/
theorem containsSub_iff {s pat : List Char} :
    containsSub s pat = true ↔ pat <:+: s := by
  constructor
  · intro h
    rw [containsSub, Option.isSome_iff_exists] at h
    obtain ⟨i, hi⟩ := h
    obtain ⟨h1, -⟩ := findSub_eq_some hi
    exact List.infix_iff_prefix_suffix.mpr ⟨s.drop i, h1, List.drop_suffix i s⟩
  · rintro ⟨l₁, l₂, rfl⟩
    rw [containsSub, Option.isSome_iff_exists]
    cases hfs : findSub pat (l₁ ++ pat ++ l₂) with
    | some v => exact ⟨v, rfl⟩
    | none =>
      have hx : pat <+: (l₁ ++ pat ++ l₂).drop l₁.length := by
        rw [List.append_assoc, List.drop_left]
        exact ⟨l₂, rfl⟩
      exact absurd hx (findSub_eq_none hfs l₁.length)

/-- Occurrence of a pattern at position `i` splits the string into the part
before `i`, the pattern, and the rest. -/
theorem occurrence_split {pat s : List Char} {i : Nat}
    (h : pat <+: s.drop i) :
    s = s.take i ++ pat ++ s.drop (i + pat.length) := by
  obtain ⟨t, ht⟩ := h
  have hts : t = s.drop (i + pat.length) := by
    have : (s.drop i).drop pat.length = t := by
      rw [← ht, List.drop_left]
    rw [List.drop_drop] at this
    exact this.symm
  calc s = s.take i ++ s.drop i := (List.take_append_drop i s).symm
    _ = s.take i ++ (pat ++ t) := by rw [ht]
    _ = s.take i ++ pat ++ s.drop (i + pat.length) := by
        rw [hts, List.append_assoc]

/-! ## Structure of the index-region match -/

/-- Unpacking of a successful `indexMatch`: the start token is found first,
then the end token in the remainder. -/
theorem indexMatch_unpack {md : List Char} {i j : Nat}
    (h : indexMatch md = some (i, j)) :
    findSub startTok md = some i ∧
      findSub endTok (md.drop (i + 12)) = some (j - (i + 12)) ∧
      i + 12 ≤ j := by
  rw [indexMatch] at h
  cases hs : findSub startTok md with
  | none => rw [hs] at h; simp at h
  | some i₀ =>
    rw [hs] at h
    dsimp only at h
    cases he : findSub endTok (md.drop (i₀ + 12)) with
    | none => rw [he] at h; simp at h
    | some k =>
      rw [he] at h
      dsimp only at h
      obtain ⟨rfl, rfl⟩ : i₀ = i ∧ i₀ + 12 + k = j := by
        simpa using h
      exact ⟨rfl, by rw [he]; congr 1; omega, by omega⟩

/-- Position facts of a successful `indexMatch`: the tokens occur at the
reported positions, the start position is the first start-token occurrence
(leftmost match), and no end token occurs between the start token and the
reported end position (non-greedy inner region). -/
theorem indexMatch_pos {md : List Char} {i j : Nat}
    (h : indexMatch md = some (i, j)) :
    i + 12 ≤ j ∧
      startTok <+: md.drop i ∧
      endTok <+: md.drop j ∧
      (∀ k, k < i → ¬ startTok <+: md.drop k) ∧
      (∀ q, i + 12 ≤ q → q < j → ¬ endTok <+: md.drop q) := by
  obtain ⟨hs, he, hij⟩ := indexMatch_unpack h
  obtain ⟨hs1, hs2⟩ := findSub_eq_some hs
  obtain ⟨he1, he2⟩ := findSub_eq_some he
  rw [List.drop_drop] at he1
  refine ⟨hij, hs1, ?_, hs2, ?_⟩
  · have : i + 12 + (j - (i + 12)) = j := by omega
    rwa [this] at he1
  · intro q hq1 hq2
    have hq3 : q - (i + 12) < j - (i + 12) := by omega
    have := he2 (q - (i + 12)) hq3
    rw [List.drop_drop] at this
    have hq4 : i + 12 + (q - (i + 12)) = q := by omega
    rwa [hq4] at this

/-- A successful `indexMatch` decomposes the source into the part before
the match, the start token, the inner region, the end token, and the part
after the match. -/
theorem indexMatch_decomp {md : List Char} {i j : Nat}
    (h : indexMatch md = some (i, j)) :
    md = md.take i ++ startTok ++ (md.drop (i + 12)).take (j - (i + 12)) ++
      endTok ++ md.drop (j + 12) := by
  obtain ⟨hs, he, hij⟩ := indexMatch_unpack h
  obtain ⟨hs1, -⟩ := findSub_eq_some hs
  obtain ⟨he1, -⟩ := findSub_eq_some he
  have step1 : md = md.take i ++ startTok ++ md.drop (i + 12) := by
    have := occurrence_split hs1
    rwa [show startTok.length = 12 from rfl] at this
  have step2 : md.drop (i + 12) =
      (md.drop (i + 12)).take (j - (i + 12)) ++ endTok ++
        (md.drop (i + 12)).drop (j - (i + 12) + 12) := by
    have := occurrence_split he1
    rwa [show endTok.length = 12 from rfl] at this
  have step3 : (md.drop (i + 12)).drop (j - (i + 12) + 12) =
      md.drop (j + 12) := by
    rw [List.drop_drop]
    congr 1
    omega
  rw [step3] at step2
  conv_lhs => rw [step1, step2]
  simp [List.append_assoc]

/-- A failed `indexMatch` means no delimited block exists at all: there is
no start-token occurrence with an end-token occurrence far enough after
it. -/
theorem indexMatch_none_iff {md : List Char} :
    indexMatch md = none ↔
      ∀ p q, p + 12 ≤ q →
        ¬ (startTok <+: md.drop p ∧ endTok <+: md.drop q) := by
  constructor
  · intro h p q hpq ⟨hsp, heq⟩
    rw [indexMatch] at h
    cases hs : findSub startTok md with
    | none => exact findSub_eq_none hs p hsp
    | some i =>
      rw [hs] at h
      dsimp only at h
      cases he : findSub endTok (md.drop (i + 12)) with
      | none =>
        have hip : i ≤ p := by
          by_contra hlt
          exact (findSub_eq_some hs).2 p (by omega) hsp
        have := findSub_eq_none he (q - (i + 12))
        rw [List.drop_drop] at this
        have hq4 : i + 12 + (q - (i + 12)) = q := by omega
        rw [hq4] at this
        exact this heq
      | some k => rw [he] at h; simp at h
  · intro h
    cases hm : indexMatch md with
    | none => rfl
    | some p =>
      obtain ⟨i, j⟩ := p
      obtain ⟨hij, hs1, he1, -, -⟩ := indexMatch_pos hm
      exact absurd ⟨hs1, he1⟩ (h i j hij)

/-- Evaluation of `strippedMd` on a successful match. -/
theorem strippedMd_of_match {md : List Char} {i j : Nat}
    (h : indexMatch md = some (i, j)) :
    strippedMd md = md.take i ++ md.drop (j + 12) := by
  rw [strippedMd, h]

/-- Evaluation of `strippedMd` when there is no match. -/
theorem strippedMd_of_none {md : List Char} (h : indexMatch md = none) :
    strippedMd md = md := by
  rw [strippedMd, h]

/-- Evaluation of `indexInner` on a successful match. -/
theorem indexInner_of_match {md : List Char} {i j : Nat}
    (h : indexMatch md = some (i, j)) :
    indexInner md = some ((md.drop (i + 12)).take (j - (i + 12))) := by
  rw [indexInner, h, Option.map_some']

/-! ## Character boundaries and the preview cut point -/

/-- The byte length of a string is always a character boundary. -/
theorem isBoundary_byteLen : ∀ s : List Char, isBoundary s (byteLen s) = true
  | [] => rfl
  | c :: cs => by
    have hpos := Char.utf8Size_pos c
    have h : byteLen (c :: cs) = (c.utf8Size + byteLen cs - 1) + 1 := by
      rw [byteLen]; omega
    rw [h]
    simp only [isBoundary]
    rw [if_pos (by omega)]
    have h2 : c.utf8Size + byteLen cs - 1 + 1 - c.utf8Size = byteLen cs := by
      omega
    rw [h2]
    exact isBoundary_byteLen cs

/-- Character boundaries never exceed the byte length. -/
theorem isBoundary_le :
    ∀ (s : List Char) (n : Nat), isBoundary s n = true → n ≤ byteLen s
  | _, 0, _ => Nat.zero_le _
  | [], _ + 1, h => by simp [isBoundary] at h
  | c :: cs, n + 1, h => by
    simp only [isBoundary] at h
    split at h
    · rename_i hc
      have := isBoundary_le cs (n + 1 - c.utf8Size) h
      rw [byteLen]
      omega
    · simp at h

/-- Full specification of the fuelled cut-point worker: started at a
position at most the byte length with enough fuel, it returns the smallest
character boundary at or after the start. -/
theorem boundaryFromAux_spec {s : List Char} :
    ∀ (fuel n : Nat), byteLen s ≤ n + fuel → n ≤ byteLen s →
      isBoundary s (boundaryFromAux s fuel n) = true ∧
      n ≤ boundaryFromAux s fuel n ∧
      boundaryFromAux s fuel n ≤ byteLen s ∧
      ∀ m, n ≤ m → m < boundaryFromAux s fuel n → isBoundary s m = false
  | 0, n, h1, h2 => by
    obtain rfl : n = byteLen s := by omega
    simp only [boundaryFromAux]
    exact ⟨isBoundary_byteLen s, Nat.le_refl _, Nat.le_refl _,
      fun m hm1 hm2 => by omega⟩
  | fuel + 1, n, h1, h2 => by
    simp only [boundaryFromAux]
    split
    · rename_i hb
      exact ⟨hb, Nat.le_refl _, h2, fun m hm1 hm2 => by omega⟩
    · rename_i hb
      have hbf : isBoundary s n = false := by
        revert hb; cases isBoundary s n <;> simp
      have hnb : n ≠ byteLen s := fun he => by
        rw [he, isBoundary_byteLen s] at hbf; cases hbf
      obtain ⟨b1, b2, b3, b4⟩ :=
        @boundaryFromAux_spec s fuel (n + 1) (by omega) (by omega)
      refine ⟨b1, by omega, b3, ?_⟩
      intro m hm1 hm2
      rcases Nat.eq_or_lt_of_le hm1 with rfl | hlt
      · exact hbf
      · exact b4 m (by omega) hm2

/-- Specification of the preview cut-point loop: started at a position at
most the byte length, it returns the smallest character boundary at or
after the start, which is itself at most the byte length. -/
theorem boundaryFrom_spec {s : List Char} {n : Nat} (h : n ≤ byteLen s) :
    isBoundary s (boundaryFrom s n) = true ∧
      n ≤ boundaryFrom s n ∧
      boundaryFrom s n ≤ byteLen s ∧
      ∀ m, n ≤ m → m < boundaryFrom s n → isBoundary s m = false :=
  boundaryFromAux_spec (byteLen s - n) n (by omega) h

/-- A byte slice from position 0 is an initial segment of the string. -/
theorem takeBytes_isPrefix : ∀ (s : List Char) (n : Nat), takeBytes s n <+: s
  | s, 0 => by rw [takeBytes]; exact ⟨s, rfl⟩
  | [], n + 1 => by rw [takeBytes]
  | c :: cs, n + 1 => by
    rw [takeBytes]
    split
    · exact List.cons_prefix_cons.mpr
        ⟨rfl, takeBytes_isPrefix cs (n + 1 - c.utf8Size)⟩
    · exact ⟨c :: cs, rfl⟩

/-- A byte slice at a character boundary has exactly that byte length. -/
theorem byteLen_takeBytes :
    ∀ (s : List Char) (n : Nat), isBoundary s n = true →
      byteLen (takeBytes s n) = n
  | _, 0, _ => by rw [takeBytes]; rfl
  | [], n + 1, h => by simp [isBoundary] at h
  | c :: cs, n + 1, h => by
    simp only [isBoundary] at h
    rw [takeBytes]
    split at h
    · rename_i hc
      rw [if_pos hc, byteLen, byteLen_takeBytes cs (n + 1 - c.utf8Size) h]
      omega
    · simp at h

/-- Evaluation of the preview field of `assemble`. -/
theorem assemble_preview (E : MdEngine) (md : List Char) :
    (assemble E md).preview =
      takeBytes (strippedMd md)
        (boundaryFrom (strippedMd md)
          (Nat.min (byteLen (strippedMd md)) 500)) := rfl

/-- Evaluation of the content field of `assemble`. -/
theorem assemble_content (E : MdEngine) (md : List Char) :
    (assemble E md).content =
      E.render (rewriteLinks (E.parse (strippedMd md))) := rfl

/-- Evaluation of the index field of `assemble` when an index region is
present. -/
theorem assemble_index_of_match {E : MdEngine} {md inner : List Char}
    (h : indexInner md = some inner) :
    (assemble E md).index = mdToHtml E inner := by
  rw [assemble]
  simp only [h]

/-- Evaluation of the index field of `assemble` when no index region is
present. -/
theorem assemble_index_of_none {E : MdEngine} {md : List Char}
    (h : indexInner md = none) :
    (assemble E md).index = [] := by
  rw [assemble]
  simp only [h]

set_option maxRecDepth 40000 in
/-- C3: for every raw source (and any engine), the assembled preview is a
prefix of the post-index-removal source whose byte length is the smallest
valid character boundary greater than or equal to
`min(byte length of that source, 500)`; in particular a 600-byte ASCII
source yields a preview of exactly 500 bytes. -/
theorem preview_is_bounded_boundary_slice :
    ∀ (E : MdEngine) (md : List Char),
      ((assemble E md).preview <+: strippedMd md) ∧
      isBoundary (strippedMd md) (byteLen (assemble E md).preview) = true ∧
      Nat.min (byteLen (strippedMd md)) 500 ≤
        byteLen (assemble E md).preview ∧
      (∀ m, Nat.min (byteLen (strippedMd md)) 500 ≤ m →
        m < byteLen (assemble E md).preview →
        isBoundary (strippedMd md) m = false) ∧
      byteLen (assemble plainEngine (List.replicate 600 'a')).preview = 500 := by
  intro E md
  have hmle : Nat.min (byteLen (strippedMd md)) 500 ≤ byteLen (strippedMd md) :=
    Nat.min_le_left _ _
  obtain ⟨hb, hge, hle, hmin⟩ := boundaryFrom_spec hmle
  have hlen : byteLen (assemble E md).preview =
      boundaryFrom (strippedMd md) (Nat.min (byteLen (strippedMd md)) 500) := by
    rw [assemble_preview]
    exact byteLen_takeBytes _ _ hb
  refine ⟨?_, ?_, ?_, ?_, ?_⟩
  · rw [assemble_preview]; exact takeBytes_isPrefix _ _
  · rw [hlen]; exact hb
  · rw [hlen]; exact hge
  · intro m hm1 hm2; rw [hlen] at hm2; exact hmin m hm1 hm2
  · decide

/-- Witness for C3 at the spec's example source: the preview is a prefix of
the index-stripped source of at least the required byte length. -/
theorem preview_is_bounded_boundary_slice_witness :
    ((assemble plainEngine mdHello).preview <+: strippedMd mdHello) ∧
    Nat.min (byteLen (strippedMd mdHello)) 500 ≤
      byteLen (assemble plainEngine mdHello).preview :=
  ⟨(preview_is_bounded_boundary_slice plainEngine mdHello).1,
    (preview_is_bounded_boundary_slice plainEngine mdHello).2.2.1⟩

/-- C10: the preview cut-point loop terminates (it is a total function
here) and is safe: starting from `min(byte length, 500)` it stops at a
position that is a valid character boundary and never exceeds the byte
length, so the slice `md[0..preview_len]` is in bounds and on a character
boundary; the byte length itself is always a valid boundary. -/
theorem preview_loop_safe :
    ∀ s : List Char,
      boundaryFrom s (Nat.min (byteLen s) 500) ≤ byteLen s ∧
      Nat.min (byteLen s) 500 ≤ boundaryFrom s (Nat.min (byteLen s) 500) ∧
      isBoundary s (boundaryFrom s (Nat.min (byteLen s) 500)) = true ∧
      isBoundary s (byteLen s) = true := by
  intro s
  obtain ⟨hb, hge, hle, -⟩ := boundaryFrom_spec (Nat.min_le_left (byteLen s) 500)
  exact ⟨hle, hge, hb, isBoundary_byteLen s⟩

/-- Evaluation of `indexInner` when there is no match. -/
theorem indexInner_of_none {md : List Char} (h : indexMatch md = none) :
    indexInner md = none := by
  rw [indexInner, h, Option.map_none']

/-- C2: if the raw source contains a delimited index block (start token
`+++INDEX+++` plus newline, inner text, newline plus end token
`---INDEX---`, first left-to-right non-greedy match), the page's index
field is the HTML rendering of the inner text and the entire block,
delimiters included, is removed from the source that feeds parsing,
preview, and rendering; with no such block the index field is empty and the
source is unchanged; with several blocks only the first (leftmost start
token, earliest end token) is extracted. -/
theorem index_extraction (E : MdEngine) (md : List Char) :
    (∀ i j, indexMatch md = some (i, j) →
      (assemble E md).index =
        mdToHtml E ((md.drop (i + 12)).take (j - (i + 12))) ∧
      md = md.take i ++ startTok ++ (md.drop (i + 12)).take (j - (i + 12)) ++
        endTok ++ md.drop (j + 12) ∧
      strippedMd md = md.take i ++ md.drop (j + 12) ∧
      (∀ k, k < i → ¬ startTok <+: md.drop k) ∧
      (∀ q, i + 12 ≤ q → q < j → ¬ endTok <+: md.drop q) ∧
      (assemble E md).content =
        E.render (rewriteLinks (E.parse (strippedMd md))) ∧
      (assemble E md).preview <+: strippedMd md) ∧
    (indexMatch md = none →
      (assemble E md).index = [] ∧
      strippedMd md = md ∧
      ∀ p q, p + 12 ≤ q →
        ¬ (startTok <+: md.drop p ∧ endTok <+: md.drop q)) := by
  constructor
  · intro i j h
    obtain ⟨-, -, -, hmin, hgreedy⟩ := indexMatch_pos h
    refine ⟨assemble_index_of_match (indexInner_of_match h),
      indexMatch_decomp h, strippedMd_of_match h, hmin, hgreedy,
      assemble_content E md, ?_⟩
    rw [assemble_preview]
    exact takeBytes_isPrefix _ _
  · intro h
    exact ⟨assemble_index_of_none (indexInner_of_none h),
      strippedMd_of_none h, indexMatch_none_iff.mp h⟩

/-- Witness for C2 at the spec's own example source: the index field is the
rendered inner text and the delimited block is gone from the remaining
source. -/
theorem index_extraction_witness :
    (assemble plainEngine mdHello).index = ("<p>Hello</p>\n").toList ∧
    strippedMd mdHello = ("\nBody text").toList := by
  have h := (index_extraction plainEngine mdHello).1 0 17 (by decide)
  refine ⟨?_, ?_⟩
  · rw [h.1]; decide
  · rw [h.2.2.1]; decide

/-- Counterexample for C5: the content of a document with two delimited
index blocks retains the delimiter literals of the second block (evaluated
with the concrete plain-text engine); the first block is matched at
positions `(0, 13)` and the remaining source still contains a well-formed
block. -/
theorem content_delimiters_counterexample :
    containsSub (assemble plainEngine mdTwoBlocks).content startLit = true ∧
    containsSub (assemble plainEngine mdTwoBlocks).content endLit = true ∧
    indexMatch mdTwoBlocks = some (0, 13) ∧
    indexMatch (strippedMd mdTwoBlocks) = some (2, 15) := by decide

/-- C5 (amended): only the first delimited block, delimiters included, is
excised from the source whose rendering becomes the content; delimiter
literals occurring outside that block — in particular the delimiters of a
second block — remain in the rendered source and can appear in the
content. -/
theorem content_first_block_excised :
    (∀ (E : MdEngine) (md : List Char) (i j : Nat),
      indexMatch md = some (i, j) →
      (assemble E md).content =
        E.render (rewriteLinks (E.parse (md.take i ++ md.drop (j + 12)))) ∧
      md = md.take i ++ startTok ++ (md.drop (i + 12)).take (j - (i + 12)) ++
        endTok ++ md.drop (j + 12)) ∧
    containsSub (assemble plainEngine mdTwoBlocks).content startLit = true := by
  constructor
  · intro E md i j h
    constructor
    · rw [assemble_content, strippedMd_of_match h]
    · exact indexMatch_decomp h
  · decide

/-- Witness for the amended C5, applying it to the two-block document. -/
theorem content_first_block_excised_witness :
    (assemble plainEngine mdTwoBlocks).content =
      plainEngine.render (rewriteLinks (plainEngine.parse
        (mdTwoBlocks.take 0 ++ mdTwoBlocks.drop 25))) :=
  (content_first_block_excised.1 plainEngine mdTwoBlocks 0 13 (by decide)).1

/-! ## The link rewriting pass -/

/-- The amended-claim destination rewrite agrees with the head test the
code performs. -/
theorem specRewriteUrl_head (url : List Char) :
    specRewriteUrl url =
      if url.head? = some '/' then '/' :: 'w' :: url else url := by
  cases url with
  | nil => simp [specRewriteUrl]
  | cons c rest =>
    by_cases hc : c = '/'
    · subst hc
      simp [specRewriteUrl, List.cons_prefix_cons]
    · rw [specRewriteUrl, if_neg, if_neg]
      · simp [hc]
      · rw [List.cons_prefix_cons]
        rintro ⟨h, -⟩
        exact hc h.symm

mutual

/-- The rewriting pass maps every hyperlink destination of a tree, in
pre-order, through the destination rewrite, and touches nothing else. -/
theorem linkUrls_rewriteLinks :
    ∀ n : MdNode, linkUrls (rewriteLinks n) = (linkUrls n).map specRewriteUrl
  | .link url cs => by
    rw [rewriteLinks, linkUrls, linkUrls, List.map_cons,
      linkUrlsList_rewriteLinksList cs, specRewriteUrl_head url]
  | .text s => rfl
  | .softbreak => rfl
  | .container t cs => by
    rw [rewriteLinks, linkUrls, linkUrls, linkUrlsList_rewriteLinksList cs]

/-- List version of `linkUrls_rewriteLinks`. -/
theorem linkUrlsList_rewriteLinksList :
    ∀ ns : List MdNode,
      linkUrlsList (rewriteLinksList ns) =
        (linkUrlsList ns).map Knowbase.specRewriteUrl
  | [] => rfl
  | n :: ns => by
    rw [rewriteLinksList, linkUrlsList, linkUrlsList, List.map_append,
      linkUrls_rewriteLinks n, linkUrlsList_rewriteLinksList ns]

end

mutual

/-- The rewriting pass preserves the whole tree apart from hyperlink
destinations. -/
theorem eraseUrls_rewriteLinks :
    ∀ n : MdNode, eraseUrls (rewriteLinks n) = eraseUrls n
  | .link url cs => by
    rw [rewriteLinks, eraseUrls, eraseUrls, eraseUrlsList_rewriteLinksList cs]
  | .text s => rfl
  | .softbreak => rfl
  | .container t cs => by
    rw [rewriteLinks, eraseUrls, eraseUrls, eraseUrlsList_rewriteLinksList cs]

/-- List version of `eraseUrls_rewriteLinks`. -/
theorem eraseUrlsList_rewriteLinksList :
    ∀ ns : List MdNode, eraseUrlsList (rewriteLinksList ns) = eraseUrlsList ns
  | [] => rfl
  | n :: ns => by
    rw [rewriteLinksList, eraseUrlsList, eraseUrlsList,
      eraseUrls_rewriteLinks n, eraseUrlsList_rewriteLinksList ns]

end

/-- Counterexample for C4: the protocol-relative destination
`//example.com` does not start with a single leading `/`, yet the pass
rewrites it (to `/w//example.com`) instead of leaving it byte-identical. -/
theorem link_rewrite_counterexample :
    singleLeadingSlash (("//example.com").toList) = false ∧
    rewriteLinks (MdNode.link (("//example.com").toList) []) =
      MdNode.link (("/w//example.com").toList) [] ∧
    ("/w//example.com").toList ≠ ("//example.com").toList :=
  ⟨by decide, rfl, by decide⟩

/-- C4 (amended): the pass visits every node and rewrites exactly those
hyperlink destinations that start with `/` — one or more leading slashes,
so `//example.com` becomes `/w//example.com` — by prepending `/w`, while
destinations not starting with `/` (relative, absolute with scheme such as
`http://example.com`, anchor-only such as `#section`) are left
byte-identical and the rest of every node is untouched. -/
theorem link_rewrite_spec :
    ∀ n : MdNode,
      linkUrls (rewriteLinks n) = (linkUrls n).map specRewriteUrl ∧
      eraseUrls (rewriteLinks n) = eraseUrls n ∧
      specRewriteUrl (("/foo/bar").toList) = ("/w/foo/bar").toList ∧
      specRewriteUrl (("http://example.com").toList) =
        ("http://example.com").toList ∧
      specRewriteUrl (("#section").toList) = ("#section").toList ∧
      specRewriteUrl (("//example.com").toList) = ("/w//example.com").toList :=
  fun n => ⟨linkUrls_rewriteLinks n, eraseUrls_rewriteLinks n,
    by decide, by decide, by decide, by decide⟩

/-! ## Stable sorting -/

/-- Insertion produces a permutation of the element consed onto the list. -/
theorem insertSorted_perm (le : α → α → Bool) (x : α) :
    ∀ s : List α, insertSorted le x s ~ x :: s
  | [] => List.Perm.refl _
  | y :: ys => by
    rw [insertSorted]
    split
    · exact List.Perm.refl _
    · exact ((insertSorted_perm le x ys).cons y).trans (List.Perm.swap x y ys)

/-- The stable sort permutes its input. -/
theorem stableSort_perm (le : α → α → Bool) :
    ∀ l : List α, stableSort le l ~ l
  | [] => List.Perm.refl _
  | x :: xs =>
    (insertSorted_perm le x (stableSort le xs)).trans
      ((stableSort_perm le xs).cons x)

/-- Insertion preserves sortedness for a transitive total boolean
preorder. -/
theorem pairwise_insertSorted {le : α → α → Bool}
    (htrans : ∀ a b c, le a b = true → le b c = true → le a c = true)
    (htotal : ∀ a b, le a b = true ∨ le b a = true) (x : α) :
    ∀ {s : List α}, s.Pairwise (fun a b => le a b = true) →
      (insertSorted le x s).Pairwise (fun a b => le a b = true)
  | [], _ => by simp [insertSorted]
  | y :: ys, h => by
    rw [insertSorted]
    obtain ⟨hy, hys⟩ := List.pairwise_cons.mp h
    split
    · rename_i hxy
      refine List.pairwise_cons.mpr ⟨?_, h⟩
      intro z hz
      rcases List.mem_cons.mp hz with rfl | hz'
      · exact hxy
      · exact htrans x y z hxy (hy z hz')
    · rename_i hxy
      have hyx : le y x = true :=
        (htotal x y).resolve_left (by simpa using hxy)
      refine List.pairwise_cons.mpr
        ⟨?_, pairwise_insertSorted htrans htotal x hys⟩
      intro z hz
      have hz2 := (insertSorted_perm le x ys).mem_iff.mp hz
      rcases List.mem_cons.mp hz2 with rfl | hz'
      · exact hyx
      · exact hy z hz'

/-- The stable sort sorts, for a transitive total boolean preorder. -/
theorem sorted_stableSort {le : α → α → Bool}
    (htrans : ∀ a b c, le a b = true → le b c = true → le a c = true)
    (htotal : ∀ a b, le a b = true ∨ le b a = true) :
    ∀ l : List α, (stableSort le l).Pairwise (fun a b => le a b = true)
  | [] => List.Pairwise.nil
  | x :: xs =>
    pairwise_insertSorted htrans htotal x (sorted_stableSort htrans htotal xs)

/-- Inserting an element preserves the list as a sublist. -/
theorem sublist_insertSorted (le : α → α → Bool) (x : α) :
    ∀ s : List α, s <+ insertSorted le x s
  | [] => List.nil_sublist _
  | y :: ys => by
    rw [insertSorted]
    split
    · exact List.sublist_cons_self x (y :: ys)
    · exact (sublist_insertSorted le x ys).cons₂ y

/-- An inserted element lands before every element it is `le`-below or tied
with. -/
theorem pair_insertSorted {le : α → α → Bool} {x b : α}
    (hxb : le x b = true) :
    ∀ {s : List α}, b ∈ s → [x, b] <+ insertSorted le x s
  | [], hb => absurd hb (List.not_mem_nil b)
  | y :: ys, hb => by
    rw [insertSorted]
    split
    · exact (List.singleton_sublist.mpr hb).cons₂ x
    · rename_i hxy
      rcases List.mem_cons.mp hb with rfl | hb'
      · exact absurd hxb (by simpa using hxy)
      · exact (pair_insertSorted hxb hb').cons y

/-- Stability of the stable sort: an ordered pair of the input whose first
component is `le` the second keeps its relative order in the output. -/
theorem pair_stableSort {le : α → α → Bool} {a b : α}
    (hab : le a b = true) :
    ∀ {l : List α}, [a, b] <+ l → [a, b] <+ stableSort le l
  | [], h => by simp at h
  | x :: xs, h => by
    rw [stableSort]
    cases h with
    | cons _ h' =>
      exact (pair_stableSort hab h').trans
        (sublist_insertSorted le x (stableSort le xs))
    | cons₂ _ h' =>
      have hbmem : b ∈ stableSort le xs :=
        (stableSort_perm le xs).mem_iff.mpr (List.singleton_sublist.mp h')
      exact pair_insertSorted hab hbmem

/-! ## Search ranking -/

/-- The search comparator is transitive. -/
theorem resultLe_trans (qlc : List Char) :
    ∀ a b c, resultLe qlc a b = true → resultLe qlc b c = true →
      resultLe qlc a c = true := by
  intro a b c h1 h2
  rw [resultLe, decide_eq_true_iff] at h1 h2 ⊢
  exact le_trans h2 h1

/-- The search comparator is total. -/
theorem resultLe_total (qlc : List Char) :
    ∀ a b, resultLe qlc a b = true ∨ resultLe qlc b a = true := by
  intro a b
  rw [resultLe, resultLe, decide_eq_true_iff, decide_eq_true_iff]
  exact le_total _ _

/-- Unfolding of `runSearch` as a stable sort of the mapped scan
results. -/
theorem runSearch_eq (st : Store) (q : List Char) :
    runSearch st q =
      stableSort (resultLe (lowercase q))
        ((scanCandidates st (lowercase q)).map fun kv =>
          mkResult kv.1 kv.2) := rfl

/-- Counterexample for C1: with the stored keys `aA.md` and `a.md` (in that
scan order) and the query `A`, both result titles have the same
Jaro-Winkler similarity to the original, non-lower-cased query, yet the
returned sequence does not retain the scan order — the code sorts by
similarity to the lower-cased query instead. -/
theorem search_order_counterexample :
    jaroWinkler (titleOf (("aA.md").toList)) (("A").toList) =
      jaroWinkler (titleOf (("a.md").toList)) (("A").toList) ∧
    runSearch [(("aA.md").toList, Page.empty), (("a.md").toList, Page.empty)]
        (("A").toList) =
      [mkResult (("a.md").toList) Page.empty,
        mkResult (("aA.md").toList) Page.empty] ∧
    mkResult (("a.md").toList) Page.empty ≠
      mkResult (("aA.md").toList) Page.empty := by decide

/-- C1 (amended): for every stored page set and every query, `run_search`
returns a permutation of the scan results ordered by descending
Jaro-Winkler similarity between each result's title and the LOWER-CASED
query string, and results with equal similarity retain the relative order
in which the store scan produced them. -/
theorem search_order (st : Store) (q : List Char) :
    (runSearch st q ~
      (scanCandidates st (lowercase q)).map fun kv => mkResult kv.1 kv.2) ∧
    (runSearch st q).Pairwise (fun a b =>
      jaroWinkler b.title (lowercase q) ≤ jaroWinkler a.title (lowercase q)) ∧
    ∀ a b,
      [a, b] <+
        ((scanCandidates st (lowercase q)).map fun kv => mkResult kv.1 kv.2) →
      jaroWinkler a.title (lowercase q) = jaroWinkler b.title (lowercase q) →
      [a, b] <+ runSearch st q := by
  refine ⟨?_, ?_, ?_⟩
  · rw [runSearch_eq]
    exact stableSort_perm _ _
  · rw [runSearch_eq]
    refine (sorted_stableSort (resultLe_trans (lowercase q))
      (resultLe_total (lowercase q)) _).imp ?_
    intro a b h
    rwa [resultLe, decide_eq_true_iff] at h
  · intro a b hsub heq
    rw [runSearch_eq]
    refine pair_stableSort ?_ hsub
    rw [resultLe, decide_eq_true_iff, heq]

/-- Witness for the amended C1: two stored keys whose titles tie (both
derive the title `a`) keep their scan order in the output. -/
theorem search_order_witness :
    [mkResult (("a.md").toList) Page.empty,
      mkResult (("a").toList) Page.empty] <+
      runSearch [(("a.md").toList, Page.empty), (("a").toList, Page.empty)]
        (("a").toList) :=
  (search_order [(("a.md").toList, Page.empty), (("a").toList, Page.empty)]
      (("a").toList)).2.2 _ _ (List.Sublist.refl _) (by decide)

/-! ## Candidate generation -/

/-- Counterexample for C6: for the stored key `Setup.md` and the query
`Setup`, the lower-cased key contains the lower-cased query, yet the scan
produces no candidate (the match is case-sensitive on the stored key) and
the search returns nothing. -/
theorem scan_candidates_counterexample :
    scanCandidates [(("Setup.md").toList, Page.empty)]
      (lowercase (("Setup").toList)) = [] ∧
    containsSub (lowercase (("Setup.md").toList))
      (lowercase (("Setup").toList)) = true ∧
    runSearch [(("Setup.md").toList, Page.empty)] (("Setup").toList) = [] := by
  decide

/-- C6 (amended): the candidate pages produced by the search scan are
exactly the stored entries whose key, as stored (not lower-cased), contains
the lower-cased query as a case-sensitive substring; a key differing from
the query only in letter case is therefore NOT a candidate when the key has
upper-case letters. -/
theorem scan_candidates_spec :
    ∀ (st : Store) (q : List Char) (kv : List Char × Page),
      kv ∈ scanCandidates st (lowercase q) ↔
        kv ∈ st ∧ (lowercase q) <:+: kv.1 := by
  intro st q kv
  rw [scanCandidates, List.mem_filter]
  exact and_congr Iff.rfl containsSub_iff

/-- Witness for the amended C6: the key `docs/setup.md` is a candidate for
the query `setup` because it contains the lower-cased query verbatim. -/
theorem scan_candidates_spec_witness :
    ((("docs/setup.md").toList), Page.empty) ∈
      scanCandidates [((("docs/setup.md").toList), Page.empty)]
        (lowercase (("setup").toList)) :=
  (scan_candidates_spec [((("docs/setup.md").toList), Page.empty)]
      (("setup").toList) ((("docs/setup.md").toList), Page.empty)).mpr
    ⟨by decide, by decide⟩

/-! ## Search result URLs -/

/-- C9: every result returned by `run_search` comes from a scanned store
entry, and its url field is the literal `w/` concatenated with the storage
key — in particular it has no leading slash. -/
theorem result_url_shape :
    ∀ (st : Store) (q : List Char) (r : SearchResult),
      r ∈ runSearch st q →
      ∃ kv, kv ∈ st ∧ containsSub kv.1 (lowercase q) = true ∧
        r = mkResult kv.1 kv.2 ∧
        r.url = 'w' :: '/' :: kv.1 ∧
        r.url.head? ≠ some '/' := by
  intro st q r hr
  rw [runSearch_eq] at hr
  have hr2 := (stableSort_perm _ _).mem_iff.mp hr
  obtain ⟨kv, hkv, rfl⟩ := List.mem_map.mp hr2
  rw [scanCandidates] at hkv
  obtain ⟨h1, h2⟩ := List.mem_filter.mp hkv
  exact ⟨kv, h1, h2, rfl, rfl, by simp [mkResult]⟩

/-- Witness for C9 at a concrete one-page store. -/
theorem result_url_shape_witness :
    ∃ kv, kv ∈ [(("idx.md").toList, Page.empty)] ∧
      containsSub kv.1 (lowercase (("idx").toList)) = true ∧
      mkResult (("idx.md").toList) Page.empty = mkResult kv.1 kv.2 ∧
      (mkResult (("idx.md").toList) Page.empty).url = 'w' :: '/' :: kv.1 ∧
      (mkResult (("idx.md").toList) Page.empty).url.head? ≠ some '/' :=
  result_url_shape [(("idx.md").toList, Page.empty)] (("idx").toList)
    (mkResult (("idx.md").toList) Page.empty) (by decide)

/-! ## Store writes and idempotence -/

/-- Writing the same value under the same field twice equals writing it
once. -/
theorem hset_hset_same :
    ∀ (st : Store) (k : List Char) (v : Page),
      hset (hset st k v) k v = hset st k v
  | [], k, v => by simp [hset]
  | (k', v') :: rest, k, v => by
    by_cases h : k' = k
    · subst h
      simp [hset]
    · simp [hset, h, hset_hset_same rest k v]

/-- Reading back a field just written yields the written record. -/
theorem hget_hset_same :
    ∀ (st : Store) (k : List Char) (v : Page),
      hget (hset st k v) k = some v
  | [], k, v => by simp [hset, hget]
  | (k', v') :: rest, k, v => by
    by_cases h : k' = k
    · subst h
      simp [hset, hget]
    · simp [hset, hget, h, hget_hset_same rest k v]

/-- A write under one field leaves every other field unchanged. -/
theorem hget_hset_other :
    ∀ (st : Store) (k : List Char) (v : Page) (k₂ : List Char), k₂ ≠ k →
      hget (hset st k v) k₂ = hget st k₂
  | [], k, v, k₂, h => by simp [hset, hget, Ne.symm h]
  | (k', v') :: rest, k, v, k₂, h => by
    by_cases hk : k' = k
    · subst hk
      simp [hset, hget, Ne.symm h]
    · by_cases hk2 : k' = k₂
      · subst hk2
        simp [hset, hget, hk]
      · simp [hset, hget, hk, hk2, hget_hset_other rest k v k₂ h]

/-- C8: page assembly is idempotent and deterministic — `assemble` is a
pure function of the markdown source (given the fixed engine), writing the
assembled page twice for the same path leaves the store exactly as writing
it once, the written record is a full overwrite readable back unchanged,
and no other path is affected. -/
theorem assemble_idempotent :
    ∀ (E : MdEngine) (st : Store) (p md : List Char),
      setPage E (setPage E st p md) p md = setPage E st p md ∧
      hget (setPage E st p md) p = some (assemble E md) ∧
      ∀ k, k ≠ p → hget (setPage E st p md) k = hget st k := by
  intro E st p md
  exact ⟨hset_hset_same st p (assemble E md),
    hget_hset_same st p (assemble E md),
    fun k hk => hget_hset_other st p (assemble E md) k hk⟩

/-- Witness for C8: a write under `index.md` does not touch `other.md`. -/
theorem assemble_idempotent_witness :
    hget (setPage plainEngine [] (("index.md").toList) mdHello)
      (("other.md").toList) = hget [] (("other.md").toList) :=
  (assemble_idempotent plainEngine [] (("index.md").toList) mdHello).2.2
    (("other.md").toList) (by decide)

/-! ## Title derivation -/

/-- The reversed trimming worker splits its input into some number of
copies of the reversed pattern followed by a remainder that no longer
starts with the pattern. -/
theorem trimRevMd_split :
    ∀ r : List Char,
      ∃ n, r = nMdRev n ++ trimRevMd r ∧ ¬ mdRev <+: trimRevMd r
  | [] => ⟨0, by simp [trimRevMd, nMdRev], by
      rw [trimRevMd]
      intro hcon
      have := hcon.length_le
      simp [mdRev] at this⟩
  | [c] => ⟨0, by simp [trimRevMd, nMdRev], by
      rw [trimRevMd]
      intro hcon
      have := hcon.length_le
      simp [mdRev] at this⟩
  | [c, c'] => ⟨0, by simp [trimRevMd, nMdRev], by
      rw [trimRevMd]
      intro hcon
      have := hcon.length_le
      simp [mdRev] at this⟩
  | d :: m :: p :: rest => by
    simp only [trimRevMd]
    split
    · rename_i h
      obtain ⟨rfl, rfl, rfl⟩ := h
      obtain ⟨n, hn, hnp⟩ := trimRevMd_split rest
      refine ⟨n + 1, ?_, hnp⟩
      conv_lhs => rw [hn]
      simp [nMdRev, mdRev, List.append_assoc]
    · rename_i h
      refine ⟨0, by simp [nMdRev], ?_⟩
      intro hcon
      rw [mdRev] at hcon
      obtain ⟨h1, hcon2⟩ := List.cons_prefix_cons.mp hcon
      obtain ⟨h2, hcon3⟩ := List.cons_prefix_cons.mp hcon2
      obtain ⟨h3, -⟩ := List.cons_prefix_cons.mp hcon3
      exact h ⟨h1.symm, h2.symm, h3.symm⟩

/-- Reversing `n` copies of the reversed pattern yields `n` copies of
`.md`. -/
theorem nMdRev_reverse : ∀ n : Nat, (nMdRev n).reverse = nMd n
  | 0 => rfl
  | n + 1 => by
    rw [nMdRev, List.reverse_append, nMdRev_reverse n, nMd]
    rfl

/-- Characterization of `trim_end_matches(".md")`: the input is the result
followed by some number of copies of `.md`, and the result has no further
trailing `.md`. -/
theorem trimEndMd_split (s : List Char) :
    ∃ n, s = trimEndMd s ++ nMd n ∧ ¬ mdSuf <:+ trimEndMd s := by
  obtain ⟨n, hn, hnp⟩ := trimRevMd_split s.reverse
  refine ⟨n, ?_, ?_⟩
  · have hs : s = (nMdRev n ++ trimRevMd s.reverse).reverse := by
      rw [← hn, List.reverse_reverse]
    conv_lhs => rw [hs]
    rw [List.reverse_append, nMdRev_reverse n]
    rfl
  · intro hcon
    have hms : mdSuf = mdRev.reverse := rfl
    rw [hms] at hcon
    exact hnp (List.reverse_suffix.mp hcon)

/-- Counterexample for C7: the key `a.md.md` yields the title `a` (all
trailing `.md` suffixes are stripped), not `a.md` as stripping a single
suffix would give. -/
theorem title_counterexample :
    titleOf (("a.md.md").toList) = ('a' :: []) ∧
    titleOneStrip (("a.md.md").toList) = ("a.md").toList ∧
    titleOf (("a.md.md").toList) ≠ titleOneStrip (("a.md.md").toList) := by
  decide

/-- C7 (amended): the search result title is the last `/`-separated segment
of the key (the whole key when it has no `/`), with ALL trailing `.md`
suffixes repeatedly stripped, and every `-` replaced by a space; the key
`docs/setup-advanced.md` yields the title `setup advanced`. -/
theorem title_derivation (key : List Char) :
    (∃ n, lastSegment key = trimEndMd (lastSegment key) ++ nMd n) ∧
    ¬ mdSuf <:+ trimEndMd (lastSegment key) ∧
    titleOf key = (trimEndMd (lastSegment key)).map dashSpace ∧
    titleOf (("docs/setup-advanced.md").toList) = ("setup advanced").toList := by
  obtain ⟨n, hn, hnp⟩ := trimEndMd_split (lastSegment key)
  exact ⟨⟨n, hn⟩, hnp, rfl, by decide⟩

/-- Witness for the amended C7 at the spec's example key. -/
theorem title_derivation_witness :
    titleOf (("docs/setup-advanced.md").toList) = ("setup advanced").toList :=
  (title_derivation []).2.2.2

end Knowbase
